import Mathlib

/-
Formal model of rplaylist (src/main.rs): a Markov playlist generator.
The program builds a song-to-song transition table from a listening
history, reshapes each row by a "creativity" parameter, and emits a
playlist by a seeded weighted random walk.

Modelling conventions:
* `f32` weights are modelled as rationals.  Every computation the
  theorems below touch is exact in `f32` at the sizes involved
  (integer counts below 2^24, and the concrete counterexample values),
  so the rational model is faithful there.
* Rust `HashMap`s are modelled as association lists; no claim depends
  on iteration order.
* The thread RNG is modelled as injected oracles: a rational roll for
  the weighted sampler and a natural index for uniform key choice.
* A Rust panic (a failed `unwrap` or the `0..len-1` underflow on an
  empty history) is modelled as `none` / `Outcome.panic`.
-/

/-- A single song, as in `struct Song`: equality is by the full triple. -/
structure Song where
  track : String
  artist : String
  album : String
  deriving DecidableEq, Repr

/-- Association-list lookup, modelling `HashMap::get`. -/
def alGet {α : Type} : List (Song × α) → Song → Option α
  | [], _ => none
  | (k, v) :: t, s => if k = s then some v else alGet t s

/-- Update the value stored at a key (no-op when the key is absent),
modelling in-place mutation of a `HashMap` entry. -/
def alSet {α : Type} : List (Song × α) → Song → (α → α) → List (Song × α)
  | [], _, _ => []
  | (k, v) :: t, s, f => if k = s then (k, f v) :: t else (k, v) :: alSet t s f

/-- A successor row: songs following a given song, with their weights. -/
abbrev Row : Type := List (Song × ℚ)

/-- The transition table `HashMap<Song, HashMap<Song, f32>>`. -/
abbrev Table : Type := List (Song × Row)

/-- `entry(next_song).or_insert(0.0) += 1.0` on a row: create the
successor entry at weight 0 if absent, then increment it by 1. -/
def bumpRow (r : Row) (next : Song) : Row :=
  let r1 : Row :=
    match alGet r next with
    | some _ => r
    | none => r ++ [(next, 0)]
  alSet r1 next (fun w => w + 1)

/-- One iteration of the builder loop in `main` (lines 145-155): make a
fresh inner map `\x7bnext: 0\x7d`, insert it as the row of `cur` only if no
row exists (`entry(current_song).or_insert(next_songs)`), then
`entry(next_song).or_insert(0.0) += 1.0` inside the row of `cur`. -/
def buildStep (T : Table) (cur next : Song) : Table :=
  let T1 : Table :=
    match alGet T cur with
    | some _ => T
    | none => T ++ [(cur, [(next, 0)])]
  alSet T1 cur (fun r => bumpRow r next)

/-- The adjacent pairs `(H[i], H[i+1])` for `i in 0..len-1`. -/
def adjPairs (H : List Song) : List (Song × Song) := H.zip H.tail

/-- The transition table builder: the loop `for i in 0..all_songs.len()-1`
of `main`, folding `buildStep` over the adjacent pairs of the history
(the history is oldest-to-newest, as held in `all_songs`). -/
def buildTable (H : List Song) : Table :=
  (adjPairs H).foldl (fun T p => buildStep T p.1 p.2) []

/-- `T[a][b]` read with default 0: the stored transition weight. -/
def tVal (T : Table) (a b : Song) : ℚ :=
  match alGet T a with
  | none => 0
  | some r => (alGet r b).getD 0

/-- The number of indices `i ≤ n-2` with `H[i] = a` and `H[i+1] = b`
(the count the spec's builder contract prescribes). -/
def countAdj (H : List Song) (a b : Song) : ℕ :=
  (List.range (H.length - 1)).countP
    (fun i => decide (H[i]? = some a ∧ H[i + 1]? = some b))

/-- The mean weight of a row: `row_total / row.len()` (lines 161-165). -/
def rowMean (r : Row) : ℚ := (r.map Prod.snd).sum / (r.length : ℚ)

/-- The smoothing update before the floor clamp (the "if below mean add
`μ·c`, if above subtract `μ·c`" part of lines 167-172). -/
def smoothWPre (c μ w : ℚ) : ℚ :=
  if w < μ then w + μ * c else if w > μ then w - μ * c else w

/-- The per-entry smoothing update of `main` (lines 167-177): the
mean-centered update followed immediately by the floor clamp at 1. -/
def smoothW (c μ w : ℚ) : ℚ :=
  if smoothWPre c μ w < 1 then 1 else smoothWPre c μ w

/-- Smoothing one row: the mean is computed once, before any update. -/
def smoothRow (c : ℚ) (r : Row) : Row :=
  r.map (fun p => (p.1, smoothW c (rowMean r) p.2))

/-- The pre-clamp image of a row under the smoothing update. -/
def smoothRowPre (c : ℚ) (r : Row) : Row :=
  r.map (fun p => (p.1, smoothWPre c (rowMean r) p.2))

/-- The creativity smoother: the `for (_key_song, following_songs)`
loop of `main` (lines 160-178), row by row. -/
def smoothTable (c : ℚ) (T : Table) : Table :=
  T.map (fun p => (p.1, smoothRow c p.2))

/-- The "from" keys of the table (`uniques.keys()`). -/
def tableKeys (T : Table) : List Song := T.map Prod.fst

/-- All successor keys of the table (keys of the inner maps). -/
def succKeys (T : Table) : List Song := T.flatMap (fun p => p.2.map Prod.fst)

/-- `random_song`: choose uniformly among the table's keys; the oracle
index is reduced mod the number of keys.  `none` models the `unwrap`
panic on an empty table. -/
def random_song (T : Table) (r : ℕ) : Option Song :=
  (tableKeys T)[r % (tableKeys T).length]?

/-- The index selection of `WeightedIndex::sample`: walk the cumulative
weights until the roll is exhausted. -/
def weightedPick : Row → ℚ → Option Song
  | [], _ => none
  | (s, w) :: t, x => if x < w then some s else weightedPick t (x - w)

/-- `choose_by_prob`: `WeightedIndex::new(&weights)` errors (hence the
`unwrap` panics, modelled as `none`) when the row is empty, a weight is
negative, or the total weight is non-positive; otherwise it samples an
index with probability proportional to the weights, modelled by a roll
clamped into `[0, total)`. -/
def choose_by_prob (r : Row) (roll : ℚ) : Option Song :=
  let ws := r.map Prod.snd
  if r = [] then none
  else if ws.any (fun w => decide (w < 0)) then none
  else if ws.sum ≤ 0 then none
  else
    let x := if 0 ≤ roll ∧ roll < ws.sum then roll else 0
    weightedPick r x

/-- `predict_next`: sample from the current song's row when it exists
and is non-empty, else fall back to a uniform random song. -/
def predict_next (cur : Song) (T : Table) (roll : ℚ) (idx : ℕ) : Option Song :=
  match alGet T cur with
  | some row => if row.length ≠ 0 then choose_by_prob row roll else random_song T idx
  | none => random_song T idx

/-- The walk loop body iterated `m` times from `cur`, consuming oracle
positions from `k`; `none` models a panic inside `predict_next`. -/
def walkSteps (T : Table) (oq : ℕ → ℚ) (oi : ℕ → ℕ) : Song → ℕ → ℕ → Option (List Song)
  | _, _, 0 => some []
  | cur, k, m + 1 =>
    match predict_next cur T (oq k) (oi k) with
    | none => none
    | some nxt => (walkSteps T oq oi nxt (k + 1) m).map (fun l => nxt :: l)

/-- The walk of `main` (lines 181-187): seed with `random_song`, then
run `for i in 2..=playlist_length`, which iterates `max (N-1) 0` times. -/
def walkSongs (T : Table) (N : ℤ) (r0 : ℕ) (oq : ℕ → ℚ) (oi : ℕ → ℕ) :
    Option (List Song) :=
  match random_song T r0 with
  | none => none
  | some s0 => (walkSteps T oq oi s0 0 (N - 1).toNat).map (fun l => s0 :: l)

/-- One printed playlist line: `println!("\x7b\x7d.\t\x7b\x7d - \x7b\x7d", i, artist, track)`. -/
def formatLine (i : ℤ) (s : Song) : String :=
  toString i ++ "." ++ "\t" ++ s.artist ++ " - " ++ s.track

/-- The printed playlist: line `i` (from 1) for the `i`-th emitted song. -/
def walkLines (l : List Song) : List String :=
  l.enum.map (fun p => formatLine ((p.1 : ℤ) + 1) p.2)

/-- Outcome of a run of the core pipeline. -/
inductive Outcome where
  | ok : List String → Outcome
  | exit1 : String → Outcome
  | panic : Outcome
  deriving DecidableEq, Repr

/-- The core pipeline of `main` after CSV decoding: build, smooth, walk.
On an empty history the builder's `0..all_songs.len()-1` underflows
(a panic); any failed `unwrap` during the walk is also a panic.
`Outcome.exit1` is reserved for the diagnostic-and-exit paths of
`main`, which all occur before the builder (file open / CSV decode). -/
def runCore (H : List Song) (N : ℤ) (c : ℚ) (r0 : ℕ) (oq : ℕ → ℚ) (oi : ℕ → ℕ) :
    Outcome :=
  if H.length = 0 then Outcome.panic
  else
    let T := smoothTable c (buildTable H)
    match walkSongs T N r0 oq oi with
    | none => Outcome.panic
    | some l => Outcome.ok (walkLines l)

/-- The chain condition: each element of the list is produced from its
predecessor by `predict_next`, consuming oracle positions from `k`. -/
def SongChain (T : Table) (oq : ℕ → ℚ) (oi : ℕ → ℕ) : ℕ → Song → List Song → Prop
  | _, _, [] => True
  | k, cur, x :: t => predict_next cur T (oq k) (oi k) = some x ∧ SongChain T oq oi (k + 1) x t

/-- Keys of an association list are pairwise distinct. -/
def NodupKeys {α : Type} (l : List (Song × α)) : Prop := (l.map Prod.fst).Nodup

/-- Structural invariant of the builder's table: distinct keys at both
levels, non-empty rows, and every stored weight is a positive integer
(a count created at 0 and immediately incremented). -/
def BuilderInv (T : Table) : Prop :=
  NodupKeys T ∧ (∀ p ∈ T, NodupKeys p.2) ∧ (∀ p ∈ T, p.2 ≠ []) ∧
  (∀ (a : Song) (r : Row) (b : Song) (w : ℚ),
    alGet T a = some r → alGet r b = some w → ∃ n : ℕ, w = (n : ℚ) + 1)

/-- Concrete songs for witnesses and counterexamples. -/
def songA : Song := ⟨"a", "pa", "la"⟩

def songB : Song := ⟨"b", "pb", "lb"⟩

def songC : Song := ⟨"c", "pc", "lc"⟩

/-- A concrete history (oldest-to-newest) whose row for `songA` is
`\x7bsongC: 3, songB: 1\x7d`, with row mean 2. -/
def Hc : List Song := [songA, songC, songA, songC, songA, songC, songA, songB]

/-- Constant roll oracle for witnesses. -/
def zeroRollOracle : ℕ → ℚ := fun _ => 0

/-- Constant index oracle for witnesses. -/
def zeroIdxOracle : ℕ → ℕ := fun _ => 0

lemma alGet_append_some {α : Type} {l : List (Song × α)} {s : Song} {v : α}
    (h : alGet l s = some v) (m : List (Song × α)) : alGet (l ++ m) s = some v := by
  induction l with
  | nil => simp [alGet] at h
  | cons hd rest ih =>
    obtain ⟨k, w⟩ := hd
    by_cases hks : k = s
    · simp [alGet, hks] at h ⊢; exact h
    · simp [alGet, hks] at h ⊢; exact ih h

lemma alGet_append_none {α : Type} {l : List (Song × α)} {s : Song}
    (h : alGet l s = none) (m : List (Song × α)) : alGet (l ++ m) s = alGet m s := by
  induction l with
  | nil => simp [alGet]
  | cons hd rest ih =>
    obtain ⟨k, w⟩ := hd
    by_cases hks : k = s
    · simp [alGet, hks] at h
    · simp [alGet, hks] at h ⊢; exact ih h

lemma alGet_alSet {α : Type} (l : List (Song × α)) (s t : Song) (f : α → α) :
    alGet (alSet l s f) t = if s = t then (alGet l s).map f else alGet l t := by
  induction l with
  | nil => simp only [alSet, alGet]; split <;> simp
  | cons hd rest ih =>
    obtain ⟨k, v⟩ := hd
    by_cases hks : k = s
    · by_cases hkt : k = t
      · have hst : s = t := hks ▸ hkt
        simp [alGet, alSet, hks, hkt, hst]
      · have hst : ¬ s = t := fun h => hkt (hks.trans h)
        simp [alGet, alSet, hks, hkt, hst]
    · by_cases hkt : k = t
      · have hst : ¬ s = t := fun h => hks (hkt.trans h.symm)
        have hts : ¬ t = s := fun h => hst h.symm
        simp [alGet, alSet, hks, hkt, hst, hts]
      · simp [alGet, alSet, hks, hkt, ih]

lemma alGet_eq_none_iff {α : Type} (l : List (Song × α)) (s : Song) :
    alGet l s = none ↔ s ∉ l.map Prod.fst := by
  induction l with
  | nil => simp [alGet]
  | cons hd rest ih =>
    obtain ⟨k, v⟩ := hd
    by_cases hks : k = s
    · subst hks
      simp [alGet]
    · simp only [alGet, if_neg hks, ih, List.map_cons, List.mem_cons]
      constructor
      · intro h hc
        rcases hc with hc | hc
        · exact hks hc.symm
        · exact h hc
      · intro h hc
        exact h (Or.inr hc)

lemma alGet_isSome_iff_mem {α : Type} (l : List (Song × α)) (s : Song) :
    (alGet l s).isSome ↔ s ∈ l.map Prod.fst := by
  rw [← not_iff_not, Option.not_isSome_iff_eq_none, alGet_eq_none_iff]

lemma alSet_map_fst {α : Type} (l : List (Song × α)) (s : Song) (f : α → α) :
    (alSet l s f).map Prod.fst = l.map Prod.fst := by
  induction l with
  | nil => simp [alSet]
  | cons hd rest ih =>
    obtain ⟨k, v⟩ := hd
    by_cases hks : k = s <;> simp [alSet, hks, ih]

lemma alGet_some_mem {α : Type} {l : List (Song × α)} {s : Song} {v : α}
    (h : alGet l s = some v) : (s, v) ∈ l := by
  induction l with
  | nil => simp [alGet] at h
  | cons hd rest ih =>
    obtain ⟨k, w⟩ := hd
    by_cases hks : k = s
    · simp [alGet, hks] at h
      subst hks; subst h; exact List.mem_cons_self _ _
    · simp [alGet, hks] at h
      exact List.mem_cons_of_mem _ (ih h)

lemma mem_alGet_of_nodup {α : Type} {l : List (Song × α)} (hn : NodupKeys l)
    {p : Song × α} (hp : p ∈ l) : alGet l p.1 = some p.2 := by
  induction l with
  | nil => simp at hp
  | cons hd rest ih =>
    obtain ⟨k, v⟩ := hd
    rcases List.mem_cons.mp hp with h | h
    · subst h; simp [alGet]
    · have hk : k ≠ p.1 := by
        intro he
        have : p.1 ∈ rest.map Prod.fst := List.mem_map_of_mem Prod.fst h
        have hn' := (List.nodup_cons.mp hn).1
        exact hn' (he ▸ this)
      have hrest : NodupKeys rest := (List.nodup_cons.mp hn).2
      simp [alGet, hk]
      exact ih hrest h

lemma mem_alSet {α : Type} {l : List (Song × α)} {s : Song} {f : α → α}
    {p : Song × α} (hp : p ∈ alSet l s f) :
    p ∈ l ∨ ∃ v, (s, v) ∈ l ∧ p = (s, f v) := by
  induction l with
  | nil => simp [alSet] at hp
  | cons hd rest ih =>
    obtain ⟨k, v⟩ := hd
    by_cases hks : k = s
    · subst hks
      simp [alSet] at hp
      rcases hp with h | h
      · exact Or.inr ⟨v, List.mem_cons_self _ _, h⟩
      · exact Or.inl (List.mem_cons_of_mem _ h)
    · simp [alSet, hks] at hp
      rcases hp with h | h
      · exact Or.inl (by simp [h])
      · rcases ih h with h' | ⟨w, hw, hpw⟩
        · exact Or.inl (List.mem_cons_of_mem _ h')
        · exact Or.inr ⟨w, List.mem_cons_of_mem _ hw, hpw⟩

lemma alGet_map_snd {α β : Type} (l : List (Song × α)) (g : α → β) (s : Song) :
    alGet (l.map (fun p => (p.1, g p.2))) s = (alGet l s).map g := by
  induction l with
  | nil => simp [alGet]
  | cons hd rest ih =>
    obtain ⟨k, v⟩ := hd
    by_cases hks : k = s <;> simp [alGet, hks, ih]

lemma alGet_single {α : Type} (k s : Song) (v : α) :
    alGet [(k, v)] s = if k = s then some v else none := by
  by_cases h : k = s <;> simp [alGet, h]

lemma alGet_bumpRow (r : Row) (next b : Song) :
    alGet (bumpRow r next) b =
      if next = b then some ((alGet r next).getD 0 + 1) else alGet r b := by
  rcases h : alGet r next with _ | w
  · simp only [bumpRow, h]
    rw [alGet_alSet]
    by_cases hb : next = b
    · subst hb
      rw [alGet_append_none h, alGet_single]
      simp
    · simp only [if_neg hb]
      rcases hrb : alGet r b with _ | v
      · rw [alGet_append_none hrb, alGet_single, if_neg hb]
      · rw [alGet_append_some hrb]
  · simp only [bumpRow, h]
    rw [alGet_alSet]
    by_cases hb : next = b
    · subst hb; simp [h]
    · simp only [if_neg hb]

lemma alGet_buildStep_self (T : Table) (cur next : Song) :
    alGet (buildStep T cur next) cur = some (bumpRow ((alGet T cur).getD []) next) := by
  rcases h : alGet T cur with _ | r0
  · simp only [buildStep, h]
    rw [alGet_alSet, if_pos rfl, alGet_append_none h, alGet_single, if_pos rfl]
    have : bumpRow [(next, 0)] next = bumpRow [] next := by
      simp [bumpRow, alGet, alSet, alGet_single]
    simp [this]
  · simp only [buildStep, h]
    rw [alGet_alSet, if_pos rfl, h]
    simp

lemma alGet_buildStep_other (T : Table) (cur next a : Song) (ha : a ≠ cur) :
    alGet (buildStep T cur next) a = alGet T a := by
  have hca : ¬ cur = a := fun h => ha h.symm
  rcases h : alGet T cur with _ | r0
  · simp only [buildStep, h]
    rw [alGet_alSet, if_neg hca]
    rcases hta : alGet T a with _ | v
    · rw [alGet_append_none hta, alGet_single, if_neg hca]
    · rw [alGet_append_some hta]
  · simp only [buildStep, h]
    rw [alGet_alSet, if_neg hca]

lemma tVal_row (T : Table) (a b : Song) :
    tVal T a b = (alGet ((alGet T a).getD []) b).getD 0 := by
  rcases h : alGet T a with _ | r <;> simp [tVal, h, alGet]

lemma tVal_buildStep (T : Table) (cur next a b : Song) :
    tVal (buildStep T cur next) a b =
      if a = cur ∧ b = next then tVal T a b + 1 else tVal T a b := by
  by_cases hac : a = cur
  · subst hac
    rw [tVal_row, tVal_row, alGet_buildStep_self]
    simp only [Option.getD_some]
    rw [alGet_bumpRow]
    by_cases hbn : b = next
    · subst hbn
      simp
    · have : ¬ next = b := fun h => hbn h.symm
      simp [this, hbn]
  · rw [tVal_row, tVal_row, alGet_buildStep_other T cur next a hac]
    simp [hac]

lemma isSome_buildStep (T : Table) (cur next a : Song) :
    (alGet (buildStep T cur next) a).isSome ↔ (alGet T a).isSome ∨ a = cur := by
  by_cases hac : a = cur
  · subst hac
    rw [alGet_buildStep_self]
    simp
  · rw [alGet_buildStep_other T cur next a hac]
    simp [hac]

lemma tVal_build_foldl (ps : List (Song × Song)) (T : Table) (a b : Song) :
    tVal (ps.foldl (fun T' p => buildStep T' p.1 p.2) T) a b =
      tVal T a b + (ps.countP (fun p => decide (p.1 = a ∧ p.2 = b)) : ℚ) := by
  induction ps generalizing T with
  | nil => simp
  | cons p rest ih =>
    rw [List.foldl_cons, ih, tVal_buildStep, List.countP_cons]
    by_cases hp : a = p.1 ∧ b = p.2
    · have hd : (p.1 = a ∧ p.2 = b) := ⟨hp.1.symm, hp.2.symm⟩
      rw [if_pos hp, if_pos (by simp [hd])]
      push_cast
      ring
    · have hd : ¬ (p.1 = a ∧ p.2 = b) := fun h => hp ⟨h.1.symm, h.2.symm⟩
      rw [if_neg hp, if_neg (by simp [hd])]
      push_cast
      ring

lemma isSome_build_foldl (ps : List (Song × Song)) (T : Table) (a : Song) :
    (alGet (ps.foldl (fun T' p => buildStep T' p.1 p.2) T) a).isSome ↔
      (alGet T a).isSome ∨ a ∈ ps.map Prod.fst := by
  induction ps generalizing T with
  | nil => simp
  | cons p rest ih =>
    rw [List.foldl_cons, ih, isSome_buildStep]
    simp only [List.map_cons, List.mem_cons]
    tauto

lemma adjPairs_cons_cons (x y : Song) (t : List Song) :
    adjPairs (x :: y :: t) = (x, y) :: adjPairs (y :: t) := by
  simp [adjPairs]

lemma countAdj_cons_cons (x y : Song) (t : List Song) (a b : Song) :
    countAdj (x :: y :: t) a b =
      countAdj (y :: t) a b + (if x = a ∧ y = b then 1 else 0) := by
  unfold countAdj
  have hlen : (x :: y :: t).length - 1 = ((y :: t).length - 1) + 1 := by simp
  rw [hlen, List.range_succ_eq_map, List.countP_cons, List.countP_map]
  have hcongr :
      List.countP
          ((fun i => decide ((x :: y :: t)[i]? = some a ∧ (x :: y :: t)[i + 1]? = some b))
            ∘ Nat.succ)
          (List.range ((y :: t).length - 1)) =
      List.countP (fun i => decide ((y :: t)[i]? = some a ∧ (y :: t)[i + 1]? = some b))
        (List.range ((y :: t).length - 1)) := by
    apply List.countP_congr
    intro i hi
    simp [Function.comp, List.getElem?_cons_succ]
  rw [hcongr]
  congr 1
  simp only [List.getElem?_cons_zero, List.getElem?_cons_succ, Option.some.injEq,
    decide_eq_true_eq]

lemma adjPairs_countP (H : List Song) (a b : Song) :
    (adjPairs H).countP (fun p => decide (p.1 = a ∧ p.2 = b)) = countAdj H a b := by
  induction H with
  | nil => simp [adjPairs, countAdj]
  | cons x t ih =>
    cases t with
    | nil => simp [adjPairs, countAdj]
    | cons y t' =>
      rw [adjPairs_cons_cons, List.countP_cons, countAdj_cons_cons, ih]
      congr 1
      simp only [decide_eq_true_eq]

lemma adjPairs_map_fst (H : List Song) : (adjPairs H).map Prod.fst = H.dropLast := by
  induction H with
  | nil => simp [adjPairs]
  | cons x t ih =>
    cases t with
    | nil => simp [adjPairs]
    | cons y t' =>
      rw [adjPairs_cons_cons, List.map_cons, ih]
      rfl

lemma mem_dropLast_iff (H : List Song) (a : Song) :
    a ∈ H.dropLast ↔ ∃ i, i + 1 < H.length ∧ H[i]? = some a := by
  induction H with
  | nil =>
    simp only [List.dropLast_nil, List.not_mem_nil, List.length_nil, false_iff]
    rintro ⟨i, hi, _⟩
    omega
  | cons x t ih =>
    cases t with
    | nil =>
      simp only [List.dropLast_single, List.not_mem_nil, List.length_cons,
        List.length_nil, false_iff]
      rintro ⟨i, hi, _⟩
      omega
    | cons y t' =>
      constructor
      · intro hmem
        have : a = x ∨ a ∈ (y :: t').dropLast := by
          have he : (x :: y :: t').dropLast = x :: (y :: t').dropLast := rfl
          rw [he] at hmem
          exact List.mem_cons.mp hmem
        rcases this with h | h
        · exact ⟨0, by simp, by simp [h.symm]⟩
        · obtain ⟨i, hi, he⟩ := ih.mp h
          exact ⟨i + 1, by simp at hi ⊢; omega, by simpa using he⟩
      · rintro ⟨i, hi, he⟩
        have hcd : (x :: y :: t').dropLast = x :: (y :: t').dropLast := rfl
        rw [hcd]
        cases i with
        | zero =>
          simp at he
          exact List.mem_cons.mpr (Or.inl he.symm)
        | succ j =>
          have he' : (y :: t')[j]? = some a := by simpa using he
          have hj : j + 1 < (y :: t').length := by simp at hi ⊢; omega
          exact List.mem_cons.mpr (Or.inr (ih.mpr ⟨j, hj, he'⟩))

/-- C1: builder contract.  For every history `H` with `n ≥ 2` songs, the
built table satisfies `T[a][b] = ` the number of indices `i ≤ n-2` with
`H[i] = a` and `H[i+1] = b`; a row exists for a song iff it occurs at a
position `i ≤ n-2`; and one builder iteration creates a missing successor
entry at 0 immediately before incrementing it, so the entry rises from
its stored value (0 for a fresh entry) by exactly 1. -/
theorem builder_contract (H : List Song) (h : 2 ≤ H.length) :
    (∀ a b : Song, tVal (buildTable H) a b = (countAdj H a b : ℚ)) ∧
    (∀ a : Song, (alGet (buildTable H) a).isSome ↔
      ∃ i, i + 1 < H.length ∧ H[i]? = some a) ∧
    (∀ (T : Table) (cur next : Song),
      tVal (buildStep T cur next) cur next = tVal T cur next + 1) := by
  refine ⟨?_, ?_, ?_⟩
  · intro a b
    have hf := tVal_build_foldl (adjPairs H) [] a b
    rw [buildTable, hf, adjPairs_countP]
    simp [tVal, alGet]
  · intro a
    rw [buildTable, isSome_build_foldl, adjPairs_map_fst, mem_dropLast_iff]
    simp [alGet]
  · intro T cur next
    rw [tVal_buildStep, if_pos ⟨rfl, rfl⟩]

/-- C1 witness: the builder contract instantiated at the concrete
two-song history `[songA, songB]`. -/
theorem builder_contract_witness :
    2 ≤ ([songA, songB] : List Song).length ∧
    ((∀ a b : Song,
        tVal (buildTable [songA, songB]) a b = (countAdj [songA, songB] a b : ℚ)) ∧
      (∀ a : Song, (alGet (buildTable [songA, songB]) a).isSome ↔
        ∃ i, i + 1 < ([songA, songB] : List Song).length ∧
          ([songA, songB] : List Song)[i]? = some a) ∧
      (∀ (T : Table) (cur next : Song),
        tVal (buildStep T cur next) cur next = tVal T cur next + 1)) :=
  ⟨by decide, builder_contract [songA, songB] (by decide)⟩

lemma alSet_length {α : Type} (l : List (Song × α)) (s : Song) (f : α → α) :
    (alSet l s f).length = l.length := by
  induction l with
  | nil => simp [alSet]
  | cons hd rest ih =>
    obtain ⟨k, v⟩ := hd
    by_cases hks : k = s <;> simp [alSet, hks, ih]

lemma bumpRow_map_fst_some (r : Row) (next : Song) {w : ℚ}
    (h : alGet r next = some w) :
    (bumpRow r next).map Prod.fst = r.map Prod.fst := by
  simp only [bumpRow, h]
  exact alSet_map_fst r next _

lemma bumpRow_map_fst_none (r : Row) (next : Song) (h : alGet r next = none) :
    (bumpRow r next).map Prod.fst = r.map Prod.fst ++ [next] := by
  simp only [bumpRow, h]
  rw [alSet_map_fst]
  simp

lemma bumpRow_ne_nil (r : Row) (next : Song) : bumpRow r next ≠ [] := by
  rcases h : alGet r next with _ | w
  · simp only [bumpRow, h]
    intro hc
    have hl := congrArg List.length hc
    rw [alSet_length] at hl
    simp at hl
  · simp only [bumpRow, h]
    intro hc
    have hl := congrArg List.length hc
    rw [alSet_length] at hl
    cases r with
    | nil => simp [alGet] at h
    | cons q t => simp at hl

lemma nodupKeys_bumpRow {r : Row} (h : NodupKeys r) (next : Song) :
    NodupKeys (bumpRow r next) := by
  unfold NodupKeys at h ⊢
  rcases hr : alGet r next with _ | w
  · rw [bumpRow_map_fst_none r next hr]
    have hnotin : next ∉ r.map Prod.fst := (alGet_eq_none_iff r next).mp hr
    simp [List.nodup_append, h, hnotin]
  · rw [bumpRow_map_fst_some r next hr]
    exact h

lemma buildStep_weight_inv {T : Table}
    (hw : ∀ (a : Song) (r : Row) (b : Song) (w : ℚ),
      alGet T a = some r → alGet r b = some w → ∃ n : ℕ, w = (n : ℚ) + 1)
    (cur next : Song) :
    ∀ (a : Song) (r : Row) (b : Song) (w : ℚ),
      alGet (buildStep T cur next) a = some r → alGet r b = some w →
      ∃ n : ℕ, w = (n : ℚ) + 1 := by
  intro a r b w har hrb
  by_cases hac : a = cur
  · subst hac
    rw [alGet_buildStep_self] at har
    have hre : r = bumpRow ((alGet T a).getD []) next := by
      exact (Option.some.inj har).symm
    subst hre
    rw [alGet_bumpRow] at hrb
    by_cases hnb : next = b
    · rw [if_pos hnb] at hrb
      have hwv : w = (alGet ((alGet T a).getD []) next).getD 0 + 1 :=
        (Option.some.inj hrb).symm
      rcases hTa : alGet T a with _ | ra
      · rw [hTa] at hwv
        refine ⟨0, ?_⟩
        simp [alGet] at hwv
        simp [hwv]
      · rw [hTa] at hwv
        simp only [Option.getD_some] at hwv
        rcases hra : alGet ra next with _ | w0
        · rw [hra] at hwv
          refine ⟨0, ?_⟩
          simp at hwv
          simp [hwv]
        · rw [hra] at hwv
          obtain ⟨n, hn⟩ := hw a ra next w0 hTa hra
          refine ⟨n + 1, ?_⟩
          rw [hwv]
          simp [hn]
    · rw [if_neg hnb] at hrb
      rcases hTa : alGet T a with _ | ra
      · rw [hTa] at hrb
        simp [alGet] at hrb
      · rw [hTa] at hrb
        exact hw a ra b w hTa hrb
  · rw [alGet_buildStep_other T cur next a hac] at har
    exact hw a r b w har hrb

lemma builderInv_buildStep {T : Table} (hT : BuilderInv T) (cur next : Song) :
    BuilderInv (buildStep T cur next) := by
  obtain ⟨hnk, hrnk, hrne, hw⟩ := hT
  refine ⟨?_, ?_, ?_, buildStep_weight_inv hw cur next⟩
  · unfold NodupKeys
    rcases hTc : alGet T cur with _ | r0 <;> simp only [buildStep, hTc] <;>
      rw [alSet_map_fst]
    · have hcur : cur ∉ T.map Prod.fst := (alGet_eq_none_iff T cur).mp hTc
      have hnk' : (T.map Prod.fst).Nodup := hnk
      simp [List.nodup_append, hnk', hcur]
    · exact hnk
  · intro p hp
    rcases hTc : alGet T cur with _ | r0 <;> simp only [buildStep, hTc] at hp
    · rcases mem_alSet hp with h | ⟨r, hr, rfl⟩
      · rcases List.mem_append.mp h with h' | h'
        · exact hrnk p h'
        · have hpv : p = (cur, [(next, 0)]) := by simpa using h'
          subst hpv
          simp [NodupKeys]
      · rcases List.mem_append.mp hr with h' | h'
        · exact nodupKeys_bumpRow (hrnk (cur, r) h') next
        · have hrv : (cur, r) = (cur, [(next, 0)]) := by simpa using h'
          have : r = [(next, 0)] := congrArg Prod.snd hrv
          subst this
          apply nodupKeys_bumpRow _ next
          simp [NodupKeys]
    · rcases mem_alSet hp with h | ⟨r, hr, rfl⟩
      · exact hrnk p h
      · exact nodupKeys_bumpRow (hrnk (cur, r) hr) next
  · intro p hp
    rcases hTc : alGet T cur with _ | r0 <;> simp only [buildStep, hTc] at hp
    · rcases mem_alSet hp with h | ⟨r, hr, rfl⟩
      · rcases List.mem_append.mp h with h' | h'
        · exact hrne p h'
        · have hpv : p = (cur, [(next, 0)]) := by simpa using h'
          subst hpv
          simp
      · exact bumpRow_ne_nil r next
    · rcases mem_alSet hp with h | ⟨r, hr, rfl⟩
      · exact hrne p h
      · exact bumpRow_ne_nil r next

lemma builderInv_buildTable (H : List Song) : BuilderInv (buildTable H) := by
  rw [buildTable]
  have hfold : ∀ (ps : List (Song × Song)) (T : Table), BuilderInv T →
      BuilderInv (ps.foldl (fun T' p => buildStep T' p.1 p.2) T) := by
    intro ps
    induction ps with
    | nil => intro T hT; exact hT
    | cons p rest ih =>
      intro T hT
      exact ih _ (builderInv_buildStep hT p.1 p.2)
  apply hfold
  refine ⟨?_, ?_, ?_, ?_⟩ <;> simp [NodupKeys, alGet]

lemma buildTable_mem_weight (H : List Song) :
    ∀ p ∈ buildTable H, ∀ q ∈ p.2, ∃ n : ℕ, q.2 = (n : ℚ) + 1 := by
  obtain ⟨hnk, hrnk, _, hw⟩ := builderInv_buildTable H
  intro p hp q hq
  have h1 : alGet (buildTable H) p.1 = some p.2 := mem_alGet_of_nodup hnk hp
  have h2 : alGet p.2 q.1 = some q.2 := mem_alGet_of_nodup (hrnk p hp) hq
  exact hw p.1 p.2 q.1 q.2 h1 h2

lemma buildTable_weight_ge_one (H : List Song) :
    ∀ p ∈ buildTable H, ∀ q ∈ p.2, 1 ≤ q.2 := by
  intro p hp q hq
  obtain ⟨n, hn⟩ := buildTable_mem_weight H p hp q hq
  rw [hn]
  have hc : (0 : ℚ) ≤ (n : ℚ) := Nat.cast_nonneg n
  linarith

lemma smoothW_ge_one (c μ w : ℚ) : 1 ≤ smoothW c μ w := by
  unfold smoothW
  by_cases h : smoothWPre c μ w < 1
  · rw [if_pos h]
  · rw [if_neg h]
    exact not_lt.mp h

lemma smoothWPre_zero (μ w : ℚ) : smoothWPre 0 μ w = w := by
  simp [smoothWPre]

lemma smoothW_zero (μ w : ℚ) (h : 1 ≤ w) : smoothW 0 μ w = w := by
  unfold smoothW
  rw [smoothWPre_zero]
  rw [if_neg (not_lt.mpr h)]

lemma smoothRow_zero {r : Row} (h : ∀ q ∈ r, 1 ≤ q.2) : smoothRow 0 r = r := by
  unfold smoothRow
  calc r.map (fun p => (p.1, smoothW 0 (rowMean r) p.2))
      = r.map id := by
        apply List.map_congr_left
        intro p hp
        simp [smoothW_zero _ _ (h p hp)]
    _ = r := List.map_id r

lemma smoothTable_zero {T : Table} (h : ∀ p ∈ T, ∀ q ∈ p.2, 1 ≤ q.2) :
    smoothTable 0 T = T := by
  unfold smoothTable
  calc T.map (fun p => (p.1, smoothRow 0 p.2))
      = T.map id := by
        apply List.map_congr_left
        intro p hp
        simp [smoothRow_zero (h p hp)]
    _ = T := List.map_id T

lemma smoothRow_map_fst (c : ℚ) (r : Row) :
    (smoothRow c r).map Prod.fst = r.map Prod.fst := by
  unfold smoothRow
  rw [List.map_map]
  apply List.map_congr_left
  intro p hp
  rfl

/-- C3: weight floor.  For every history of length ≥ 2 every weight the
builder stores is ≥ 1 (a positive integer count), and for every
creativity `c ≥ 0`, after the smoother runs every weight in every row
is ≥ 1. -/
theorem weight_floor (H : List Song) (c : ℚ) (h2 : 2 ≤ H.length) (hc : 0 ≤ c) :
    (∀ p ∈ buildTable H, ∀ q ∈ p.2, 1 ≤ q.2) ∧
    (∀ p ∈ smoothTable c (buildTable H), ∀ q ∈ p.2, 1 ≤ q.2) := by
  refine ⟨buildTable_weight_ge_one H, ?_⟩
  intro p hp q hq
  unfold smoothTable at hp
  obtain ⟨p0, hp0, rfl⟩ := List.mem_map.mp hp
  unfold smoothRow at hq
  obtain ⟨q0, hq0, rfl⟩ := List.mem_map.mp hq
  exact smoothW_ge_one c (rowMean p0.2) q0.2

/-- C3 witness: the weight floor instantiated at the history
`[songA, songB]` and creativity 0. -/
theorem weight_floor_witness :
    2 ≤ ([songA, songB] : List Song).length ∧ (0 : ℚ) ≤ 0 ∧
    ((∀ p ∈ buildTable [songA, songB], ∀ q ∈ p.2, 1 ≤ q.2) ∧
      (∀ p ∈ smoothTable 0 (buildTable [songA, songB]), ∀ q ∈ p.2, 1 ≤ q.2)) :=
  ⟨by decide, by decide, weight_floor [songA, songB] 0 (by decide) (by decide)⟩

/-- C4: identity at c = 0.  On every table the builder produces from a
history of length ≥ 2 (all weights ≥ 1), smoothing with creativity 0
changes nothing: `w ± μ·0 = w` and the clamp never fires. -/
theorem identity_c0 (H : List Song) (h2 : 2 ≤ H.length) :
    smoothTable 0 (buildTable H) = buildTable H :=
  smoothTable_zero (buildTable_weight_ge_one H)

/-- C4 witness: identity at c = 0 on the history `[songA, songB]`. -/
theorem identity_c0_witness :
    2 ≤ ([songA, songB] : List Song).length ∧
    smoothTable 0 (buildTable [songA, songB]) = buildTable [songA, songB] :=
  ⟨by decide, identity_c0 [songA, songB] (by decide)⟩

/-- C8: smoother frame.  For every table and every creativity, smoothing
changes only the weight values: the set of "from" keys and the key list
of every row are identical before and after. -/
theorem smoother_frame (T : Table) (c : ℚ) :
    tableKeys (smoothTable c T) = tableKeys T ∧
    ∀ s : Song, (alGet (smoothTable c T) s).map (fun r => r.map Prod.fst) =
      (alGet T s).map (fun r => r.map Prod.fst) := by
  constructor
  · unfold tableKeys smoothTable
    rw [List.map_map]
    apply List.map_congr_left
    intro p hp
    rfl
  · intro s
    unfold smoothTable
    rw [alGet_map_snd]
    rcases h : alGet T s with _ | r
    · simp
    · simp [smoothRow_map_fst]

/-- C2 counterexample: in the table built from the concrete history
`Hc`, the row of `songA` is `[(songC, 3), (songB, 1)]` with mean 2, yet
smoothing with creativity 1 sends the `songB` weight to `1 + 2 = 3`,
not to the mean 2 (pre-clamp) and not to `max 2 1` (post-clamp): the
update adds or subtracts the whole mean instead of moving entries onto
it. -/
theorem uniformization_c1_cex :
    rowMean ((alGet (buildTable Hc) songA).getD []) = 2 ∧
    alGet (smoothRowPre 1 ((alGet (buildTable Hc) songA).getD [])) songB = some 3 ∧
    alGet (smoothRowPre 1 ((alGet (buildTable Hc) songA).getD [])) songB ≠
      some (rowMean ((alGet (buildTable Hc) songA).getD [])) ∧
    tVal (smoothTable 1 (buildTable Hc)) songA songB = 3 ∧
    tVal (smoothTable 1 (buildTable Hc)) songA songB ≠
      max (rowMean ((alGet (buildTable Hc) songA).getD [])) 1 := by
  have hAB : ¬ (songA = songB) := by decide
  have hAC : ¬ (songA = songC) := by decide
  have hBA : ¬ (songB = songA) := by decide
  have hBC : ¬ (songB = songC) := by decide
  have hCA : ¬ (songC = songA) := by decide
  have hCB : ¬ (songC = songB) := by decide
  have e1 : rowMean ((alGet (buildTable Hc) songA).getD []) = 2 := by
    norm_num [Hc, buildTable, adjPairs, buildStep, bumpRow, alGet, alSet,
      rowMean, hAB, hAC, hBA, hBC, hCA, hCB]
  have e2 : alGet (smoothRowPre 1 ((alGet (buildTable Hc) songA).getD [])) songB
      = some 3 := by
    norm_num [Hc, buildTable, adjPairs, buildStep, bumpRow, alGet, alSet,
      rowMean, smoothRowPre, smoothWPre, hAB, hAC, hBA, hBC, hCA, hCB]
  have e3 : tVal (smoothTable 1 (buildTable Hc)) songA songB = 3 := by
    norm_num [Hc, buildTable, adjPairs, buildStep, bumpRow, alGet, alSet,
      rowMean, smoothTable, smoothRow, smoothW, smoothWPre, tVal,
      hAB, hAC, hBA, hBC, hCA, hCB]
  refine ⟨e1, e2, ?_, e3, ?_⟩
  · rw [e2, e1]
    norm_num
  · rw [e3, e1]
    norm_num

/-- C2 corrected: at creativity 1 the smoother does not uniformize a
row.  Before the clamp each entry moves by the whole mean: a weight `w`
becomes `w + μ` when `w < μ`, `w − μ` when `w > μ`, and stays put when
`w = μ`.  Only a row whose weights all already equal `μ` ends uniform,
at `max μ 1`. -/
theorem uniformization_c1_amended (r : Row) :
    smoothRowPre 1 r = r.map (fun p =>
      (p.1, if p.2 < rowMean r then p.2 + rowMean r
            else if p.2 > rowMean r then p.2 - rowMean r else p.2)) ∧
    ((∀ q ∈ r, q.2 = rowMean r) →
      ∀ q ∈ smoothRow 1 r, q.2 = max (rowMean r) 1) := by
  constructor
  · unfold smoothRowPre
    apply List.map_congr_left
    intro p hp
    simp [smoothWPre]
  · intro hall q hq
    unfold smoothRow at hq
    obtain ⟨q0, hq0, rfl⟩ := List.mem_map.mp hq
    have h1 : q0.2 = rowMean r := hall q0 hq0
    show smoothW 1 (rowMean r) q0.2 = max (rowMean r) 1
    rw [h1]
    have hpre : smoothWPre 1 (rowMean r) (rowMean r) = rowMean r := by
      simp [smoothWPre]
    unfold smoothW
    rw [hpre]
    by_cases h : rowMean r < 1
    · rw [if_pos h, max_eq_right h.le]
    · rw [if_neg h, max_eq_left (not_lt.mp h)]

/-- C2 witness: the corrected statement at the concrete uniform row
`[(songA, 2), (songB, 2)]`. -/
theorem uniformization_c1_amended_witness :
    (smoothRowPre 1 [(songA, 2), (songB, 2)] =
      ([(songA, 2), (songB, 2)] : Row).map (fun p =>
        (p.1, if p.2 < rowMean [(songA, 2), (songB, 2)] then
                p.2 + rowMean [(songA, 2), (songB, 2)]
              else if p.2 > rowMean [(songA, 2), (songB, 2)] then
                p.2 - rowMean [(songA, 2), (songB, 2)]
              else p.2))) ∧
    ((∀ q ∈ ([(songA, 2), (songB, 2)] : Row), q.2 = rowMean [(songA, 2), (songB, 2)]) →
      ∀ q ∈ smoothRow 1 [(songA, 2), (songB, 2)],
        q.2 = max (rowMean [(songA, 2), (songB, 2)]) 1) :=
  uniformization_c1_amended [(songA, 2), (songB, 2)]

lemma weightedPick_some_mem {r : Row} {x : ℚ} {s : Song}
    (h : weightedPick r x = some s) : s ∈ r.map Prod.fst := by
  induction r generalizing x with
  | nil => simp [weightedPick] at h
  | cons hd t ih =>
    obtain ⟨s0, w0⟩ := hd
    by_cases hx : x < w0
    · simp [weightedPick, hx] at h
      simp [h]
    · simp [weightedPick, hx] at h
      simp [ih h]

lemma weightedPick_isSome {r : Row} {x : ℚ}
    (h0 : 0 ≤ x) (hlt : x < (r.map Prod.snd).sum) :
    ∃ s, weightedPick r x = some s := by
  induction r generalizing x with
  | nil =>
    simp at hlt
    linarith
  | cons hd t ih =>
    obtain ⟨s0, w0⟩ := hd
    by_cases hx : x < w0
    · exact ⟨s0, by simp [weightedPick, hx]⟩
    · have h0' : 0 ≤ x - w0 := by linarith [not_lt.mp hx]
      have hlt' : x - w0 < (t.map Prod.snd).sum := by
        simp only [List.map_cons, List.sum_cons] at hlt
        linarith
      obtain ⟨s, hs⟩ := ih h0' hlt'
      exact ⟨s, by simp [weightedPick, hx, hs]⟩

lemma choose_by_prob_some {r : Row} (roll : ℚ)
    (hne : r ≠ []) (hpos : ∀ q ∈ r, 0 < q.2) :
    ∃ s, choose_by_prob r roll = some s ∧ s ∈ r.map Prod.fst := by
  have hsum : 0 < (r.map Prod.snd).sum := by
    apply List.sum_pos
    · intro x hx
      obtain ⟨q, hq, rfl⟩ := List.mem_map.mp hx
      exact hpos q hq
    · simp [hne]
  have hneg : ((r.map Prod.snd).any (fun w => decide (w < 0))) = false := by
    rw [List.any_eq_false]
    intro w hw
    obtain ⟨q, hq, rfl⟩ := List.mem_map.mp hw
    simp [not_lt.mpr (le_of_lt (hpos q hq))]
  have hx0 : (0 : ℚ) ≤ (if 0 ≤ roll ∧ roll < (r.map Prod.snd).sum then roll else 0) := by
    split
    · rename_i hcond
      exact hcond.1
    · exact le_refl 0
  have hxlt : (if 0 ≤ roll ∧ roll < (r.map Prod.snd).sum then roll else 0) <
      (r.map Prod.snd).sum := by
    split
    · rename_i hcond
      exact hcond.2
    · exact hsum
  obtain ⟨s, hs⟩ := weightedPick_isSome hx0 hxlt
  refine ⟨s, ?_, weightedPick_some_mem hs⟩
  simp only [choose_by_prob, if_neg hne, hneg, Bool.false_eq_true, if_false]
  rw [if_neg (not_le.mpr hsum)]
  exact hs

lemma choose_by_prob_mem {r : Row} {roll : ℚ} {s : Song}
    (h : choose_by_prob r roll = some s) : s ∈ r.map Prod.fst := by
  simp only [choose_by_prob] at h
  by_cases hne : r = []
  · rw [if_pos hne] at h
    exact absurd h (by simp)
  · rw [if_neg hne] at h
    rcases hany : ((r.map Prod.snd).any (fun w => decide (w < 0))) with _ | _
    · rw [hany] at h
      simp only [Bool.false_eq_true, if_false] at h
      by_cases hsum : (r.map Prod.snd).sum ≤ 0
      · rw [if_pos hsum] at h
        exact absurd h (by simp)
      · rw [if_neg hsum] at h
        exact weightedPick_some_mem h
    · rw [hany] at h
      simp at h

lemma random_song_mem {T : Table} (hk : tableKeys T ≠ []) (r : ℕ) :
    ∃ s, random_song T r = some s ∧ s ∈ tableKeys T := by
  have hlen : 0 < (tableKeys T).length := List.length_pos.mpr hk
  have hmod : r % (tableKeys T).length < (tableKeys T).length := Nat.mod_lt r hlen
  refine ⟨(tableKeys T)[r % (tableKeys T).length], ?_, ?_⟩
  · unfold random_song
    exact List.getElem?_eq_getElem hmod
  · exact List.mem_iff_getElem?.mpr ⟨_, List.getElem?_eq_getElem hmod⟩

lemma random_song_some_mem {T : Table} {r : ℕ} {s : Song}
    (h : random_song T r = some s) : s ∈ tableKeys T := by
  unfold random_song at h
  exact List.mem_iff_getElem?.mpr ⟨_, h⟩

lemma random_song_surj {T : Table} {s : Song} (hs : s ∈ tableKeys T) :
    ∃ r, random_song T r = some s := by
  obtain ⟨i, hi, he⟩ := List.mem_iff_getElem.mp hs
  refine ⟨i, ?_⟩
  unfold random_song
  rw [Nat.mod_eq_of_lt hi, List.getElem?_eq_getElem hi, he]

lemma succKeys_of_row {T : Table} {cur s : Song} {row : Row}
    (hmem : (cur, row) ∈ T) (hs : s ∈ row.map Prod.fst) : s ∈ succKeys T := by
  unfold succKeys
  exact List.mem_flatMap.mpr ⟨(cur, row), hmem, hs⟩

lemma predict_next_some {T : Table} (hk : tableKeys T ≠ [])
    (hrow : ∀ p ∈ T, p.2 ≠ [] ∧ ∀ q ∈ p.2, 0 < q.2)
    (cur : Song) (roll : ℚ) (idx : ℕ) :
    ∃ s, predict_next cur T roll idx = some s := by
  rcases h : alGet T cur with _ | row
  · simp only [predict_next, h]
    obtain ⟨s, hs, _⟩ := random_song_mem hk idx
    exact ⟨s, hs⟩
  · simp only [predict_next, h]
    have hmem : (cur, row) ∈ T := alGet_some_mem h
    have hne : row ≠ [] := (hrow _ hmem).1
    have hpos : ∀ q ∈ row, 0 < q.2 := (hrow _ hmem).2
    have hlen : row.length ≠ 0 := fun hc => hne (List.length_eq_zero.mp hc)
    rw [if_pos hlen]
    obtain ⟨s, hs, _⟩ := choose_by_prob_some roll hne hpos
    exact ⟨s, hs⟩

lemma predict_next_mem {T : Table} {cur s : Song} {roll : ℚ} {idx : ℕ}
    (h : predict_next cur T roll idx = some s) :
    s ∈ tableKeys T ∨ s ∈ succKeys T := by
  rcases hT : alGet T cur with _ | row
  · simp only [predict_next, hT] at h
    exact Or.inl (random_song_some_mem h)
  · simp only [predict_next, hT] at h
    by_cases hlen : row.length ≠ 0
    · rw [if_pos hlen] at h
      exact Or.inr (succKeys_of_row (alGet_some_mem hT) (choose_by_prob_mem h))
    · rw [if_neg hlen] at h
      exact Or.inl (random_song_some_mem h)

lemma walkSteps_total {T : Table} (hk : tableKeys T ≠ [])
    (hrow : ∀ p ∈ T, p.2 ≠ [] ∧ ∀ q ∈ p.2, 0 < q.2)
    (oq : ℕ → ℚ) (oi : ℕ → ℕ) :
    ∀ (m k : ℕ) (cur : Song), ∃ l, walkSteps T oq oi cur k m = some l ∧
      l.length = m ∧ SongChain T oq oi k cur l := by
  intro m
  induction m with
  | zero =>
    intro k cur
    exact ⟨[], rfl, rfl, trivial⟩
  | succ m ih =>
    intro k cur
    obtain ⟨nxt, hn⟩ := predict_next_some hk hrow cur (oq k) (oi k)
    obtain ⟨l, hl, hlen, hchain⟩ := ih (k + 1) nxt
    refine ⟨nxt :: l, ?_, by simp [hlen], ?_⟩
    · simp [walkSteps, hn, hl]
    · simp only [SongChain]
      exact ⟨hn, hchain⟩

lemma walkSteps_mem {T : Table} {oq : ℕ → ℚ} {oi : ℕ → ℕ} :
    ∀ {m k : ℕ} {cur : Song} {l : List Song},
      walkSteps T oq oi cur k m = some l →
      ∀ s ∈ l, s ∈ tableKeys T ∨ s ∈ succKeys T := by
  intro m
  induction m with
  | zero =>
    intro k cur l h s hs
    simp [walkSteps] at h
    subst h
    simp at hs
  | succ m ih =>
    intro k cur l h s hs
    rcases hp : predict_next cur T (oq k) (oi k) with _ | nxt
    · simp [walkSteps, hp] at h
    · simp only [walkSteps, hp] at h
      obtain ⟨l0, hl0, rfl⟩ := Option.map_eq_some'.mp h
      rcases List.mem_cons.mp hs with rfl | hs0
      · exact predict_next_mem hp
      · exact ih hl0 s hs0

lemma choose_by_prob_some_of_sum {r : Row} (roll : ℚ)
    (hne : r ≠ []) (hnonneg : ∀ q ∈ r, 0 ≤ q.2)
    (hsum : 0 < (r.map Prod.snd).sum) :
    ∃ s, choose_by_prob r roll = some s ∧ s ∈ r.map Prod.fst := by
  have hneg : ((r.map Prod.snd).any (fun w => decide (w < 0))) = false := by
    rw [List.any_eq_false]
    intro w hw
    obtain ⟨q, hq, rfl⟩ := List.mem_map.mp hw
    simp [not_lt.mpr (hnonneg q hq)]
  have hx0 : (0 : ℚ) ≤ (if 0 ≤ roll ∧ roll < (r.map Prod.snd).sum then roll else 0) := by
    split
    · rename_i hcond
      exact hcond.1
    · exact le_refl 0
  have hxlt : (if 0 ≤ roll ∧ roll < (r.map Prod.snd).sum then roll else 0) <
      (r.map Prod.snd).sum := by
    split
    · rename_i hcond
      exact hcond.2
    · exact hsum
  obtain ⟨s, hs⟩ := weightedPick_isSome hx0 hxlt
  refine ⟨s, ?_, weightedPick_some_mem hs⟩
  simp only [choose_by_prob, if_neg hne, hneg, Bool.false_eq_true, if_false]
  rw [if_neg (not_le.mpr hsum)]
  exact hs

lemma alGet_smoothTable (c : ℚ) (T : Table) (a : Song) :
    alGet (smoothTable c T) a = (alGet T a).map (smoothRow c) := by
  unfold smoothTable
  exact alGet_map_snd T (smoothRow c) a

/-- C9: sampler totality under precondition.  Over non-negative weights
(the sampler's stated precondition), `choose_by_prob` fails exactly when
the row is empty or the total weight is non-positive; and on every row
of a table produced by the builder followed by the smoother on a history
of length ≥ 2, the failure branch (the `unwrap` of
`WeightedIndex::new`) is unreachable and the sampler returns a key of
the row. -/
theorem sampler_total (H : List Song) (c : ℚ) (roll : ℚ) (h2 : 2 ≤ H.length) :
    (∀ r : Row, (∀ q ∈ r, 0 ≤ q.2) →
      (choose_by_prob r roll = none ↔ r = [] ∨ (r.map Prod.snd).sum ≤ 0)) ∧
    (∀ (a : Song) (row : Row), alGet (smoothTable c (buildTable H)) a = some row →
      ∃ s, choose_by_prob row roll = some s ∧ s ∈ row.map Prod.fst) := by
  constructor
  · intro r hnonneg
    constructor
    · intro h
      by_cases hne : r = []
      · exact Or.inl hne
      · by_cases hsum : (r.map Prod.snd).sum ≤ 0
        · exact Or.inr hsum
        · obtain ⟨s, hs, _⟩ := choose_by_prob_some_of_sum roll hne hnonneg (not_le.mp hsum)
          rw [hs] at h
          exact absurd h (by simp)
    · intro h
      rcases h with h | h
      · simp [choose_by_prob, h]
      · by_cases hne : r = []
        · simp [choose_by_prob, hne]
        · simp only [choose_by_prob, if_neg hne]
          have hneg : ((r.map Prod.snd).any (fun w => decide (w < 0))) = false := by
            rw [List.any_eq_false]
            intro w hw
            obtain ⟨q, hq, rfl⟩ := List.mem_map.mp hw
            simp [not_lt.mpr (hnonneg q hq)]
          rw [hneg]
          simp [h]
  · intro a row hrow
    rw [alGet_smoothTable] at hrow
    obtain ⟨r0, hr0, rfl⟩ := Option.map_eq_some'.mp hrow
    obtain ⟨hnk, _, hrne, _⟩ := builderInv_buildTable H
    have hmem : (a, r0) ∈ buildTable H := alGet_some_mem hr0
    have hr0ne : r0 ≠ [] := hrne (a, r0) hmem
    have hne : smoothRow c r0 ≠ [] := by
      intro hc
      have := congrArg List.length hc
      simp [smoothRow] at this
      exact hr0ne this
    have hpos : ∀ q ∈ smoothRow c r0, 0 < q.2 := by
      intro q hq
      unfold smoothRow at hq
      obtain ⟨q0, hq0, rfl⟩ := List.mem_map.mp hq
      have := smoothW_ge_one c (rowMean r0) q0.2
      show (0 : ℚ) < smoothW c (rowMean r0) q0.2
      linarith
    exact choose_by_prob_some roll hne hpos

/-- C9 witness: the sampler-totality statement at the two-song history
`[songA, songB]`, creativity 0 and roll 0. -/
theorem sampler_total_witness :
    2 ≤ ([songA, songB] : List Song).length ∧
    ((∀ r : Row, (∀ q ∈ r, 0 ≤ q.2) →
        (choose_by_prob r 0 = none ↔ r = [] ∨ (r.map Prod.snd).sum ≤ 0)) ∧
      (∀ (a : Song) (row : Row),
        alGet (smoothTable 0 (buildTable [songA, songB])) a = some row →
        ∃ s, choose_by_prob row 0 = some s ∧ s ∈ row.map Prod.fst)) :=
  ⟨by decide, sampler_total [songA, songB] 0 0 (by decide)⟩

lemma walkLines_getElem (l : List Song) (j : ℕ) (s : Song) (h : l[j]? = some s) :
    (walkLines l)[j]? = some (formatLine ((j : ℤ) + 1) s) := by
  simp [walkLines, List.getElem?_map, List.getElem?_enum, h]

lemma tableKeys_smoothTable (c : ℚ) (T : Table) :
    tableKeys (smoothTable c T) = tableKeys T := by
  unfold tableKeys smoothTable
  rw [List.map_map]
  apply List.map_congr_left
  intro p hp
  rfl

lemma buildTable_keys_ne_nil {H : List Song} (h2 : 2 ≤ H.length) :
    tableKeys (buildTable H) ≠ [] := by
  cases H with
  | nil => simp at h2
  | cons x t =>
    cases t with
    | nil => simp at h2
    | cons y t' =>
      have hsome : (alGet (buildTable (x :: y :: t')) x).isSome := by
        rw [buildTable, isSome_build_foldl, adjPairs_map_fst]
        right
        have hdl : (x :: y :: t').dropLast = x :: (y :: t').dropLast := rfl
        rw [hdl]
        exact List.mem_cons_self _ _
      have hmem : x ∈ (buildTable (x :: y :: t')).map Prod.fst :=
        (alGet_isSome_iff_mem _ _).mp hsome
      exact List.ne_nil_of_mem hmem

/-- C5: walk length and format.  For every `N ≥ 1` and every table with
at least one row, all rows non-empty with positive weights (what the
smoother guarantees), the walk emits exactly `N` songs: the first is
`random_song`'s seed, each later one comes from `predict_next`, and the
`j`-th emitted song (from 0) is printed as line `j+1` in the
`i.\t\x7bartist\x7d - \x7btrack\x7d` format. -/
theorem walk_length_and_format (T : Table) (N : ℤ) (r0 : ℕ) (oq : ℕ → ℚ) (oi : ℕ → ℕ)
    (hN : 1 ≤ N) (hk : tableKeys T ≠ [])
    (hrow : ∀ p ∈ T, p.2 ≠ [] ∧ ∀ q ∈ p.2, 0 < q.2) :
    ∃ (s0 : Song) (rest : List Song), random_song T r0 = some s0 ∧
      walkSongs T N r0 oq oi = some (s0 :: rest) ∧
      ((s0 :: rest).length : ℤ) = N ∧
      SongChain T oq oi 0 s0 rest ∧
      ∀ (j : ℕ) (s : Song), (s0 :: rest)[j]? = some s →
        (walkLines (s0 :: rest))[j]? = some (formatLine ((j : ℤ) + 1) s) := by
  obtain ⟨s0, hs0, _⟩ := random_song_mem hk r0
  obtain ⟨rest, hrest, hlen, hchain⟩ := walkSteps_total hk hrow oq oi (N - 1).toNat 0 s0
  refine ⟨s0, rest, hs0, ?_, ?_, hchain, ?_⟩
  · simp only [walkSongs, hs0, hrest, Option.map_some']
  · simp only [List.length_cons, hlen]
    omega
  · intro j s h
    exact walkLines_getElem _ j s h

/-- C5 witness: a length-2 walk on the one-row table
`[(songA, [(songB, 1)])]`. -/
theorem walk_length_and_format_witness :
    1 ≤ (2 : ℤ) ∧ tableKeys [(songA, [(songB, 1)])] ≠ [] ∧
    (∀ p ∈ ([(songA, [(songB, 1)])] : Table), p.2 ≠ [] ∧ ∀ q ∈ p.2, 0 < q.2) ∧
    (∃ (s0 : Song) (rest : List Song),
      random_song [(songA, [(songB, 1)])] 0 = some s0 ∧
      walkSongs [(songA, [(songB, 1)])] 2 0 zeroRollOracle zeroIdxOracle =
        some (s0 :: rest) ∧
      ((s0 :: rest).length : ℤ) = 2 ∧
      SongChain [(songA, [(songB, 1)])] zeroRollOracle zeroIdxOracle 0 s0 rest ∧
      ∀ (j : ℕ) (s : Song), (s0 :: rest)[j]? = some s →
        (walkLines (s0 :: rest))[j]? = some (formatLine ((j : ℤ) + 1) s)) :=
  ⟨by decide, by decide, by decide,
    walk_length_and_format [(songA, [(songB, 1)])] 2 0 zeroRollOracle zeroIdxOracle
      (by decide) (by decide) (by decide)⟩

/-- C6: walk closure under seeds.  Every song a walk emits is a "from"
key of the table or a successor key; the seed (and hence every
dead-end restart, which calls the same `random_song`) ranges over
exactly the row-key set — it always lands in it and every row key is a
possible outcome — and a non-restart step returns a key of the current
song's row. -/
theorem walk_closure (T : Table) (oq : ℕ → ℚ) (oi : ℕ → ℕ) (hk : tableKeys T ≠ []) :
    (∀ (N : ℤ) (r0 : ℕ) (l : List Song), walkSongs T N r0 oq oi = some l →
      ∀ s ∈ l, s ∈ tableKeys T ∨ s ∈ succKeys T) ∧
    (∀ r : ℕ, ∃ s, random_song T r = some s ∧ s ∈ tableKeys T) ∧
    (∀ s ∈ tableKeys T, ∃ r : ℕ, random_song T r = some s) ∧
    (∀ (cur : Song) (row : Row) (roll : ℚ) (idx : ℕ) (s : Song),
      alGet T cur = some row → row ≠ [] → predict_next cur T roll idx = some s →
      s ∈ row.map Prod.fst) := by
  refine ⟨?_, fun r => random_song_mem hk r, fun s hs => random_song_surj hs, ?_⟩
  · intro N r0 l h s hs
    rcases h0 : random_song T r0 with _ | s0
    · simp only [walkSongs, h0] at h
      exact Option.noConfusion h
    · simp only [walkSongs, h0] at h
      obtain ⟨l0, hl0, rfl⟩ := Option.map_eq_some'.mp h
      rcases List.mem_cons.mp hs with rfl | hs0
      · exact Or.inl (random_song_some_mem h0)
      · exact walkSteps_mem hl0 s hs0
  · intro cur row roll idx s halGet hne hp
    simp only [predict_next, halGet] at hp
    have hlen : row.length ≠ 0 := fun hc => hne (List.length_eq_zero.mp hc)
    rw [if_pos hlen] at hp
    exact choose_by_prob_mem hp

/-- C6 witness: walk closure on the one-row table
`[(songA, [(songB, 1)])]`. -/
theorem walk_closure_witness :
    tableKeys [(songA, [(songB, 1)])] ≠ [] ∧
    ((∀ (N : ℤ) (r0 : ℕ) (l : List Song),
        walkSongs [(songA, [(songB, 1)])] N r0 zeroRollOracle zeroIdxOracle = some l →
        ∀ s ∈ l, s ∈ tableKeys [(songA, [(songB, 1)])] ∨
          s ∈ succKeys [(songA, [(songB, 1)])]) ∧
      (∀ r : ℕ, ∃ s, random_song [(songA, [(songB, 1)])] r = some s ∧
        s ∈ tableKeys [(songA, [(songB, 1)])]) ∧
      (∀ s ∈ tableKeys [(songA, [(songB, 1)])], ∃ r : ℕ,
        random_song [(songA, [(songB, 1)])] r = some s) ∧
      (∀ (cur : Song) (row : Row) (roll : ℚ) (idx : ℕ) (s : Song),
        alGet [(songA, [(songB, 1)])] cur = some row → row ≠ [] →
        predict_next cur [(songA, [(songB, 1)])] roll idx = some s →
        s ∈ row.map Prod.fst)) :=
  ⟨by decide, walk_closure [(songA, [(songB, 1)])] zeroRollOracle zeroIdxOracle (by decide)⟩

/-- C10: for every requested playlist length `N ≤ 1` — including 0 and
negative values, which the CLI accepts as a signed integer — the
program still emits exactly one song: the seed is printed
unconditionally before the `for i in 2..=N` loop, which runs zero
times. -/
theorem single_song_small_length (H : List Song) (N : ℤ) (c : ℚ) (r0 : ℕ)
    (oq : ℕ → ℚ) (oi : ℕ → ℕ) (h2 : 2 ≤ H.length) (hN : N ≤ 1) :
    ∃ s : Song, runCore H N c r0 oq oi = Outcome.ok [formatLine 1 s] := by
  have hk : tableKeys (smoothTable c (buildTable H)) ≠ [] := by
    rw [tableKeys_smoothTable]
    exact buildTable_keys_ne_nil h2
  obtain ⟨s0, hs0, _⟩ := random_song_mem hk r0
  have hzero : (N - 1).toNat = 0 := by omega
  have hw : walkSongs (smoothTable c (buildTable H)) N r0 oq oi = some [s0] := by
    simp only [walkSongs, hs0, hzero, walkSteps, Option.map_some']
  refine ⟨s0, ?_⟩
  have hlen0 : ¬ H.length = 0 := by omega
  simp only [runCore, if_neg hlen0, hw]
  congr 1

/-- C10 witness: requesting length 0 from the history `[songA, songB]`
still emits one line. -/
theorem single_song_small_length_witness :
    2 ≤ ([songA, songB] : List Song).length ∧ (0 : ℤ) ≤ 1 ∧
    ∃ s : Song, runCore [songA, songB] 0 0 0 zeroRollOracle zeroIdxOracle =
      Outcome.ok [formatLine 1 s] :=
  ⟨by decide, by decide,
    single_song_small_length [songA, songB] 0 0 0 zeroRollOracle zeroIdxOracle
      (by decide) (by decide)⟩

/-- C7: the code does not reject a short history with a diagnostic and
exit code 1.  On the empty history the builder's loop bound
`all_songs.len() - 1` underflows (a panic); on a singleton history the
builder runs zero iterations, the table stays empty, and the seed's
`unwrap` in `random_song` panics.  Neither input reaches the `exit1`
outcome reserved for the diagnostic-and-exit paths of `main`. -/
theorem short_history_panics :
    runCore [] 3 0 0 zeroRollOracle zeroIdxOracle = Outcome.panic ∧
    runCore [songA] 3 0 0 zeroRollOracle zeroIdxOracle = Outcome.panic := by
  constructor
  · rfl
  · rfl
